import Mathlib

/-!
Shallow embedding of the recipe-management backend (user accounts, user-scoped
tags/ingredients/recipes, nested-collection reconciliation).  The repository's
`src` tree ships the test suite (`core/tests/test_models.py`,
`recipe/tests/test_recipe_api.py`, `recipe/tests/test_tags_api.py`) and the
`wait_for_db` management command; the model/serializer/view modules themselves
(`core/models.py`, `recipe/serializers.py`, `recipe/views.py`) are not in the
tree, so the store and reconciliation operations below are modelled from the
specification, with the in-tree tests fixing the intended behaviour.
-/

namespace RecipeApp

/-- Error taxonomy of the service layer (spec section 7): invalid input maps to
400, missing credentials to 401, absent-or-foreign resources to 404, and
`Forbidden` exists in the vocabulary but is never used for ownership
violations. -/
inductive Err where
  | InvalidInput
  | AuthRequired
  | NotFound
  | Forbidden
deriving Repr, DecidableEq

/-! ## Generic list utilities: an executable sort used to model the store's
`order_by` clauses, and a lexicographic comparison on strings modelling the
store's text collation. -/

/-- Insert an element into a list so that, if the list was sorted by `le`, the
result still is. -/
def insertSorted {α : Type} (le : α → α → Bool) (a : α) : List α → List α
  | [] => [a]
  | b :: l => if le a b then a :: b :: l else b :: insertSorted le a l

/-- Insertion sort by the comparison `le`; models the `ORDER BY` of a query. -/
def sortBy {α : Type} (le : α → α → Bool) : List α → List α
  | [] => []
  | a :: l => insertSorted le a (sortBy le l)

/-- Lexicographic comparison of character lists by code point. -/
def lexLe : List Char → List Char → Bool
  | [], _ => true
  | _ :: _, [] => false
  | a :: as, b :: bs => if a < b then true else if b < a then false else lexLe as bs

/-- Modelled from the spec: the store's string collation (used by the
name-descending listing of tags and ingredients) is modelled as lexicographic
comparison of code points. -/
def nameLe (s t : String) : Bool := lexLe s.data t.data

/-! ## Identity store. -/

/-- A user account row: unique normalized email, password stored only as a
one-way hash, and the standard activity/staff/superuser flags. -/
structure User where
  id : Nat
  email : String
  password : String
  is_active : Bool
  is_staff : Bool
  is_superuser : Bool
deriving Repr, DecidableEq

/-- Modelled from the spec: password hashing is delegated to the framework
(`core/models.py` is not in the tree); it is modelled as an injective tagging
function, so that `check_password` can verify by re-hashing while the stored
value is never the plaintext itself. -/
def hash_password (p : String) : String := "hashed$" ++ p

/-- Verify a candidate password against the stored hash by re-hashing. -/
def check_password (u : User) (p : String) : Bool := u.password == hash_password p

/-- Split a character list at the last occurrence of `c`, returning the parts
before and after it, or `none` when `c` does not occur. -/
def splitLastAt (c : Char) : List Char → Option (List Char × List Char)
  | [] => none
  | x :: xs =>
    match splitLastAt c xs with
    | some p => some (x :: p.1, p.2)
    | none => if x = c then some ([], xs) else none

/-- Modelled from the spec: `core/models.py` is not in the tree; the user
manager normalizes an email by lowercasing only the domain portion (the part
after the last `@`), preserving the local part verbatim. -/
def normalize_email (email : String) : String :=
  match splitLastAt '@' email.data with
  | some p => String.mk (p.1 ++ '@' :: p.2.map Char.toLower)
  | none => email

/-! ## Taxonomy store (tags and ingredients share one shape and contract). -/

/-- A taxonomy row (`Tag` and `Ingredient` have this identical shape): an id, a
reference to the owning user, and a name. -/
structure Taxon where
  id : Nat
  user : Nat
  name : String
deriving Repr, DecidableEq

/-- A taxonomy table: its rows plus the next id the store will assign. -/
structure TaxTable where
  rows : List Taxon
  next_id : Nat
deriving Repr, DecidableEq

/-- Well-formedness of a taxonomy table: ids are below the allocation counter,
ids are pairwise distinct, and no two rows share the natural key
`(user, name)`. -/
def TaxTable.WF (tbl : TaxTable) : Prop :=
  (∀ t ∈ tbl.rows, t.id < tbl.next_id) ∧
  tbl.rows.Pairwise (fun a b => a.id ≠ b.id) ∧
  tbl.rows.Pairwise (fun a b => ¬(a.user = b.user ∧ a.name = b.name))

instance (tbl : TaxTable) : Decidable tbl.WF := by
  unfold TaxTable.WF
  infer_instance

/-- Modelled from the spec: `getOrCreate(user, name)` of the taxonomy store
(the managers in `core/models.py` / `recipe/serializers.py` are not in the
tree): look up a row with natural key `(user, name)`; if present reuse it,
otherwise append a fresh row under a fresh id. -/
def TaxTable.getOrCreate (tbl : TaxTable) (uid : Nat) (name : String) : TaxTable × Nat :=
  match tbl.rows.find? (fun t => decide (t.user = uid ∧ t.name = name)) with
  | some t => (tbl, t.id)
  | none =>
    (⟨tbl.rows ++ [⟨tbl.next_id, uid, name⟩], tbl.next_id + 1⟩, tbl.next_id)

/-- Modelled from the spec: the reconciliation engine resolves each supplied
name through `getOrCreate` under the requesting user and returns the resolved
id set (duplicate names collapse, since the target is a set). -/
def TaxTable.reconcile (tbl : TaxTable) (uid : Nat) (names : List String) : TaxTable × List Nat :=
  match names with
  | [] => (tbl, [])
  | n :: rest =>
    let p1 := tbl.getOrCreate uid n
    let p2 := p1.1.reconcile uid rest
    (p2.1, if p1.2 ∈ p2.2 then p2.2 else p1.2 :: p2.2)

/-! ## Recipe store. -/

/-- A recipe row: owning user, core fields, and the many-to-many association
sets to tags and ingredients, stored as lists of taxonomy ids. -/
structure Recipe where
  id : Nat
  user : Nat
  title : String
  time_minutes : Nat
  price : Int
  link : String
  description : String
  tags : List Nat
  ingredients : List Nat
deriving Repr, DecidableEq

/-- A mutation payload: every recognized field is optional, `none` meaning the
key is absent from the request body.  `price` is modelled in fixed-point
hundredths, `user` is the (always-ignored) ownership field. -/
structure RecipePayload where
  user : Option Nat
  title : Option String
  time_minutes : Option Nat
  price : Option Int
  link : Option String
  description : Option String
  tags : Option (List String)
  ingredients : Option (List String)
deriving Repr, DecidableEq

/-- The whole persistent store. -/
structure Store where
  users : List User
  next_user_id : Nat
  tags : TaxTable
  ingredients : TaxTable
  recipes : List Recipe
  next_recipe_id : Nat
deriving Repr, DecidableEq

/-- Well-formedness of the store: both taxonomy tables are well-formed and
recipe ids are pairwise distinct and below the allocation counter. -/
def Store.WF (st : Store) : Prop :=
  st.tags.WF ∧ st.ingredients.WF ∧
  (∀ r ∈ st.recipes, r.id < st.next_recipe_id) ∧
  st.recipes.Pairwise (fun a b => a.id ≠ b.id)

instance (st : Store) : Decidable st.WF := by
  unfold Store.WF
  infer_instance

/-- Modelled from the spec: `create_user` (the manager in `core/models.py` is
not in the tree) rejects an absent or empty email with `InvalidInput`, leaving
the store untouched; otherwise it stores the normalized email and the password
hash, with default flags. -/
def create_user (st : Store) (email : Option String) (password : String) :
    Store × Except Err User :=
  match email with
  | none => (st, Except.error Err.InvalidInput)
  | some e =>
    if e = "" then (st, Except.error Err.InvalidInput)
    else
      let u : User :=
        { id := st.next_user_id, email := normalize_email e,
          password := hash_password password,
          is_active := true, is_staff := false, is_superuser := false }
      ({ st with users := st.users ++ [u], next_user_id := st.next_user_id + 1 },
       Except.ok u)

/-- Modelled from the spec: the scoped single-recipe lookup filters by both the
primary key and the owning user, so a recipe owned by someone else is
indistinguishable from an absent one (`NotFound`, never `Forbidden`). -/
def recipe_get (st : Store) (uid rid : Nat) : Except Err Recipe :=
  match st.recipes.find? (fun r => decide (r.id = rid ∧ r.user = uid)) with
  | some r => Except.ok r
  | none => Except.error Err.NotFound

/-- Modelled from the spec: overwrite exactly the core fields present in the
payload and retain the rest; the `user` key is deliberately never applied
(ownership is immutable by design). -/
def applyFields (r : Recipe) (p : RecipePayload) : Recipe :=
  { r with
    title := p.title.getD r.title,
    time_minutes := p.time_minutes.getD r.time_minutes,
    price := p.price.getD r.price,
    link := p.link.getD r.link,
    description := p.description.getD r.description }

/-- Modelled from the spec: the body of a successful update — reconcile each
association kind whose key is present (replacing the set), leave an absent
kind untouched, overwrite the supplied core fields, and write the new row back
under the same id. -/
def recipe_update_apply (st : Store) (uid : Nat) (r : Recipe) (p : RecipePayload) :
    Store × Recipe :=
  let tp := match p.tags with
    | some ns => st.tags.reconcile uid ns
    | none => (st.tags, r.tags)
  let ip := match p.ingredients with
    | some ns => st.ingredients.reconcile uid ns
    | none => (st.ingredients, r.ingredients)
  let r' := { applyFields r p with tags := tp.2, ingredients := ip.2 }
  ({ st with
      tags := tp.1,
      ingredients := ip.1,
      recipes := st.recipes.map (fun x => if x.id = r.id then r' else x) }, r')

/-- Modelled from the spec: `update(user, id, fields, partial)` — scoped lookup
first (404 on absent or foreign rows, store untouched); a full update requires
every core field to be supplied, a partial update accepts any subset; on
success the payload is applied by `recipe_update_apply`. -/
def recipe_update (st : Store) (uid rid : Nat) (p : RecipePayload) (patch : Bool) :
    Store × Except Err Recipe :=
  match recipe_get st uid rid with
  | Except.error e => (st, Except.error e)
  | Except.ok r =>
    if patch = false ∧ (p.title = none ∨ p.time_minutes = none ∨ p.price = none) then
      (st, Except.error Err.InvalidInput)
    else
      ((recipe_update_apply st uid r p).1, Except.ok (recipe_update_apply st uid r p).2)

/-- Modelled from the spec: `create(user, fields, tagNames?, ingredientNames?)`
— requires the core fields, defaults `link`/`description` to the empty string,
reconciles any supplied association names, and appends the new row owned by
the requesting user under a fresh id. -/
def recipe_create (st : Store) (uid : Nat) (p : RecipePayload) :
    Store × Except Err Recipe :=
  if p.title = none ∨ p.time_minutes = none ∨ p.price = none then
    (st, Except.error Err.InvalidInput)
  else
    let tp := match p.tags with
      | some ns => st.tags.reconcile uid ns
      | none => (st.tags, [])
    let ip := match p.ingredients with
      | some ns => st.ingredients.reconcile uid ns
      | none => (st.ingredients, [])
    let r : Recipe :=
      { id := st.next_recipe_id, user := uid,
        title := p.title.getD "", time_minutes := p.time_minutes.getD 0,
        price := p.price.getD 0, link := p.link.getD "",
        description := p.description.getD "",
        tags := tp.2, ingredients := ip.2 }
    ({ st with
        tags := tp.1,
        ingredients := ip.1,
        recipes := st.recipes ++ [r],
        next_recipe_id := st.next_recipe_id + 1 },
     Except.ok r)

/-- Modelled from the spec: `delete(user, id)` — scoped lookup first (404 on
absent or foreign rows, store untouched); on success remove the recipe row and
with it its association entries, never any taxonomy row. -/
def recipe_delete (st : Store) (uid rid : Nat) : Store × Except Err Unit :=
  match recipe_get st uid rid with
  | Except.error e => (st, Except.error e)
  | Except.ok _ =>
    ({ st with recipes := st.recipes.filter (fun r => decide (r.id ≠ rid)) }, Except.ok ())

/-- Modelled from the spec: the recipe listing — rows owned by the requesting
user, ordered by id descending. -/
def recipe_list (st : Store) (uid : Nat) : List Recipe :=
  sortBy (fun a b => decide (b.id ≤ a.id)) (st.recipes.filter (fun r => decide (r.user = uid)))

/-- Modelled from the spec: the tag listing — rows owned by the requesting
user, ordered by name descending. -/
def tag_list (st : Store) (uid : Nat) : List Taxon :=
  sortBy (fun a b => nameLe b.name a.name) (st.tags.rows.filter (fun t => decide (t.user = uid)))

/-- Modelled from the spec: the ingredient listing — rows owned by the
requesting user, ordered by name descending. -/
def ingredient_list (st : Store) (uid : Nat) : List Taxon :=
  sortBy (fun a b => nameLe b.name a.name)
    (st.ingredients.rows.filter (fun t => decide (t.user = uid)))

/-! ## The `wait_for_db` management command (this one is in the tree). -/

/-- Observable database-related effects a management command could perform. -/
inductive DbAction where
  | checkConnection
  | sleep (seconds : Nat)
deriving Repr, DecidableEq

/-- Shallow embedding of `Command.handle` in
`core/management/commands/wait_for_db.py`: the body is the single statement
`pass`, so the trace of effects the command performs is empty. -/
def wait_for_db_handle : List DbAction := []

/-! ## Decidable equality for `Except`, used to evaluate operation results on
concrete inputs. -/

/-- Decidable equality on `Except`, by cases on the two constructors. -/
def exceptDecEq {ε α : Type} [DecidableEq ε] [DecidableEq α] :
    (a b : Except ε α) → Decidable (a = b)
  | Except.ok x, Except.ok y =>
    if h : x = y then Decidable.isTrue (congrArg Except.ok h)
    else Decidable.isFalse (fun hc => h (by injection hc))
  | Except.ok _, Except.error _ => Decidable.isFalse (fun hc => by injection hc)
  | Except.error _, Except.ok _ => Decidable.isFalse (fun hc => by injection hc)
  | Except.error x, Except.error y =>
    if h : x = y then Decidable.isTrue (congrArg Except.error h)
    else Decidable.isFalse (fun hc => h (by injection hc))

instance {ε α : Type} [DecidableEq ε] [DecidableEq α] : DecidableEq (Except ε α) :=
  exceptDecEq

/-! ## Concrete states used to evaluate the theorems on explicit inputs. -/

/-- The empty store. -/
def emptyStore : Store :=
  { users := [], next_user_id := 0, tags := ⟨[], 0⟩, ingredients := ⟨[], 0⟩,
    recipes := [], next_recipe_id := 0 }

/-- A small tag table: user 0 owns `Breakfast`, user 1 owns `Fruity`. -/
def exTagTable : TaxTable := ⟨[⟨1, 0, "Breakfast"⟩, ⟨2, 1, "Fruity"⟩], 3⟩

/-- A small ingredient table: user 0 owns `Ginger`. -/
def exIngTable : TaxTable := ⟨[⟨1, 0, "Ginger"⟩], 2⟩

/-- A sample recipe owned by user 0, tagged `Breakfast` with ingredient
`Ginger`. -/
def exRecipe : Recipe :=
  ⟨5, 0, "Sample recipe", 10, 525, "http://www.sample.com",
   "Sample recipe description", [1], [1]⟩

/-- A recipe owned by the other user 1. -/
def exRecipeB : Recipe := ⟨6, 1, "Other recipe", 5, 100, "", "", [], []⟩

/-- A small two-user store. -/
def exStore : Store := ⟨[], 0, exTagTable, exIngTable, [exRecipe, exRecipeB], 7⟩

/-- A patch payload that replaces the tag set with `{Lunch}` and clears the
ingredient set. -/
def exPayload : RecipePayload :=
  ⟨none, none, none, none, none, none, some ["Lunch"], some []⟩

/-- A patch payload that renames the recipe and attempts to change its owner. -/
def exPayloadUser : RecipePayload :=
  ⟨some 1, some "New title", none, none, none, none, none, none⟩

/-- A patch payload that only renames the recipe. -/
def exPayloadTitle : RecipePayload :=
  ⟨none, some "New title", none, none, none, none, none, none⟩

/-- A payload whose only key is the (ignored) owner field, the exact shape the
test suite sends in a full update. -/
def exPayloadOnlyUser : RecipePayload :=
  ⟨some 1, none, none, none, none, none, none, none⟩

/-- The recipe produced by updating `exRecipe` with `exPayload`: the tag set is
replaced by the freshly created `Lunch` tag (id 3) and the ingredient set is
cleared. -/
def exUpdated : Recipe :=
  ⟨5, 0, "Sample recipe", 10, 525, "http://www.sample.com",
   "Sample recipe description", [3], []⟩

/-! ## Lemmas about the sorting utilities. -/

theorem mem_insertSorted {α : Type} (le : α → α → Bool) (a x : α) :
    ∀ l : List α, x ∈ insertSorted le a l ↔ x = a ∨ x ∈ l
  | [] => by simp [insertSorted]
  | b :: l => by
    by_cases h : le a b
    · simp [insertSorted, h, List.mem_cons]
    · simp [insertSorted, h, List.mem_cons, mem_insertSorted le a x l]
      tauto

theorem insertSorted_perm {α : Type} (le : α → α → Bool) (a : α) :
    ∀ l : List α, (insertSorted le a l).Perm (a :: l)
  | [] => List.Perm.refl _
  | b :: l => by
    by_cases h : le a b
    · simp only [insertSorted, if_pos h]
      exact List.Perm.refl _
    · simp only [insertSorted, if_neg h]
      exact ((insertSorted_perm le a l).cons b).trans (List.Perm.swap a b l)

theorem sortBy_perm {α : Type} (le : α → α → Bool) :
    ∀ l : List α, (sortBy le l).Perm l
  | [] => List.Perm.refl _
  | a :: l => (insertSorted_perm le a (sortBy le l)).trans ((sortBy_perm le l).cons a)

theorem mem_sortBy {α : Type} (le : α → α → Bool) (x : α) (l : List α) :
    x ∈ sortBy le l ↔ x ∈ l :=
  (sortBy_perm le l).mem_iff

theorem insertSorted_pairwise {α : Type} (le : α → α → Bool)
    (htot : ∀ a b, le a b = true ∨ le b a = true)
    (htr : ∀ a b c, le a b = true → le b c = true → le a c = true) (a : α) :
    ∀ l : List α, l.Pairwise (fun x y => le x y = true) →
      (insertSorted le a l).Pairwise (fun x y => le x y = true)
  | [], _ => by simp [insertSorted]
  | b :: l, h => by
    rcases List.pairwise_cons.mp h with ⟨hb, hl⟩
    by_cases hab : le a b
    · simp only [insertSorted, if_pos hab]
      refine List.pairwise_cons.mpr ⟨?_, h⟩
      intro x hx
      rcases List.mem_cons.mp hx with hxb | hx
      · rw [hxb]
        exact hab
      · exact htr a b x hab (hb x hx)
    · simp only [insertSorted, if_neg hab]
      refine List.pairwise_cons.mpr ⟨?_, insertSorted_pairwise le htot htr a l hl⟩
      intro x hx
      rcases (mem_insertSorted le a x l).mp hx with hxa | hx
      · rcases htot a b with h1 | h1
        · exact absurd h1 hab
        · rw [hxa]
          exact h1
      · exact hb x hx

theorem sortBy_pairwise {α : Type} (le : α → α → Bool)
    (htot : ∀ a b, le a b = true ∨ le b a = true)
    (htr : ∀ a b c, le a b = true → le b c = true → le a c = true) :
    ∀ l : List α, (sortBy le l).Pairwise (fun x y => le x y = true)
  | [] => List.Pairwise.nil
  | a :: l => insertSorted_pairwise le htot htr a (sortBy le l)
      (sortBy_pairwise le htot htr l)

/-! ## Lemmas about the lexicographic comparison. -/

theorem lexLe_total : ∀ l m : List Char, lexLe l m = true ∨ lexLe m l = true
  | [], _ => Or.inl rfl
  | _ :: _, [] => Or.inr rfl
  | a :: as, b :: bs => by
    rcases lt_trichotomy a b with h | h | h
    · left
      simp [lexLe, h]
    · subst h
      rcases lexLe_total as bs with ih | ih
      · left
        simp [lexLe, lt_irrefl, ih]
      · right
        simp [lexLe, lt_irrefl, ih]
    · right
      simp [lexLe, h]

theorem lexLe_trans :
    ∀ l m n : List Char, lexLe l m = true → lexLe m n = true → lexLe l n = true
  | [], _, _, _, _ => rfl
  | _ :: _, [], _, h1, _ => by simp [lexLe] at h1
  | _ :: _, _ :: _, [], _, h2 => by simp [lexLe] at h2
  | a :: as, b :: bs, c :: cs, h1, h2 => by
    by_cases hab : a < b
    · by_cases hbc : b < c
      · simp [lexLe, lt_trans hab hbc]
      · by_cases hcb : c < b
        · simp [lexLe, hbc, hcb] at h2
        · have hbceq : b = c := le_antisymm (not_lt.mp hcb) (not_lt.mp hbc)
          subst hbceq
          simp [lexLe, hab]
    · by_cases hba : b < a
      · simp [lexLe, hab, hba] at h1
      · have habeq : a = b := le_antisymm (not_lt.mp hba) (not_lt.mp hab)
        subst habeq
        simp only [lexLe, lt_irrefl, if_false] at h1
        by_cases hac : a < c
        · simp [lexLe, hac]
        · by_cases hca : c < a
          · simp [lexLe, hac, hca] at h2
          · have haceq : a = c := le_antisymm (not_lt.mp hca) (not_lt.mp hac)
            subst haceq
            simp only [lexLe, lt_irrefl, if_false] at h2 ⊢
            exact lexLe_trans as bs cs h1 h2

theorem nameLe_total (s t : String) : nameLe s t = true ∨ nameLe t s = true :=
  lexLe_total s.data t.data

theorem nameLe_trans (s t u : String) :
    nameLe s t = true → nameLe t u = true → nameLe s u = true :=
  lexLe_trans s.data t.data u.data

/-! ## Lemmas about the taxonomy store. -/

theorem key_symm :
    Symmetric (fun a b : Taxon => ¬(a.user = b.user ∧ a.name = b.name)) := by
  intro a b h hc
  exact h ⟨hc.1.symm, hc.2.symm⟩

theorem key_unique {tbl : TaxTable} (hwf : tbl.WF) {t s : Taxon}
    (ht : t ∈ tbl.rows) (hs : s ∈ tbl.rows)
    (hu : t.user = s.user) (hn : t.name = s.name) : t = s := by
  by_contra hne
  exact List.Pairwise.forall key_symm hwf.2.2 ht hs hne ⟨hu, hn⟩

theorem getOrCreate_mem_old (tbl : TaxTable) (uid : Nat) (name : String) :
    ∀ t ∈ tbl.rows, t ∈ (tbl.getOrCreate uid name).1.rows := by
  intro t ht
  cases hf : tbl.rows.find? (fun s => decide (s.user = uid ∧ s.name = name)) with
  | some s =>
    simp only [TaxTable.getOrCreate, hf]
    exact ht
  | none =>
    simp only [TaxTable.getOrCreate, hf]
    exact List.mem_append_left _ ht

theorem getOrCreate_resolves (tbl : TaxTable) (uid : Nat) (name : String) :
    ∃ t ∈ (tbl.getOrCreate uid name).1.rows,
      t.id = (tbl.getOrCreate uid name).2 ∧ t.user = uid ∧ t.name = name := by
  cases hf : tbl.rows.find? (fun s => decide (s.user = uid ∧ s.name = name)) with
  | some s =>
    simp only [TaxTable.getOrCreate, hf]
    have hp0 := List.find?_some hf
    have hpred : decide (s.user = uid ∧ s.name = name) = true := hp0
    exact ⟨s, List.mem_of_find?_eq_some hf, rfl,
      (of_decide_eq_true hpred).1, (of_decide_eq_true hpred).2⟩
  | none =>
    simp only [TaxTable.getOrCreate, hf]
    exact ⟨⟨tbl.next_id, uid, name⟩,
      List.mem_append_right _ (List.mem_cons_self _ _), rfl, rfl, rfl⟩

theorem getOrCreate_mem_new (tbl : TaxTable) (uid : Nat) (name : String) :
    ∀ t ∈ (tbl.getOrCreate uid name).1.rows,
      t ∈ tbl.rows ∨
        (t.id = (tbl.getOrCreate uid name).2 ∧ t.user = uid ∧ t.name = name) := by
  intro t ht
  cases hf : tbl.rows.find? (fun s => decide (s.user = uid ∧ s.name = name)) with
  | some s =>
    simp only [TaxTable.getOrCreate, hf] at ht
    exact Or.inl ht
  | none =>
    simp only [TaxTable.getOrCreate, hf] at ht ⊢
    rcases List.mem_append.mp ht with h | h
    · exact Or.inl h
    · have heq : t = ⟨tbl.next_id, uid, name⟩ := List.mem_singleton.mp h
      subst heq
      exact Or.inr ⟨rfl, rfl, rfl⟩

theorem getOrCreate_WF {tbl : TaxTable} (uid : Nat) (name : String) (hwf : tbl.WF) :
    (tbl.getOrCreate uid name).1.WF := by
  cases hf : tbl.rows.find? (fun s => decide (s.user = uid ∧ s.name = name)) with
  | some s =>
    simpa only [TaxTable.getOrCreate, hf] using hwf
  | none =>
    obtain ⟨hlt, hids, hkeys⟩ := hwf
    simp only [TaxTable.getOrCreate, hf]
    refine ⟨?_, ?_, ?_⟩
    · intro t ht
      rcases List.mem_append.mp ht with h | h
      · exact Nat.lt_succ_of_lt (hlt t h)
      · rw [List.mem_singleton.mp h]
        exact Nat.lt_succ_self _
    · refine List.pairwise_append.mpr ⟨hids, by simp, ?_⟩
      intro a ha b hb
      rw [List.mem_singleton.mp hb]
      exact Nat.ne_of_lt (hlt a ha)
    · refine List.pairwise_append.mpr ⟨hkeys, by simp, ?_⟩
      intro a ha b hb hc
      rw [List.mem_singleton.mp hb] at hc
      exact List.find?_eq_none.mp hf a ha (decide_eq_true_iff.mpr hc)

theorem getOrCreate_existing {tbl : TaxTable} (hwf : tbl.WF) {t : Taxon}
    (ht : t ∈ tbl.rows) {uid : Nat} {name : String}
    (hu : t.user = uid) (hn : t.name = name) :
    tbl.getOrCreate uid name = (tbl, t.id) := by
  cases hf : tbl.rows.find? (fun s => decide (s.user = uid ∧ s.name = name)) with
  | none =>
    exact absurd (decide_eq_true_iff.mpr ⟨hu, hn⟩) (List.find?_eq_none.mp hf t ht)
  | some s =>
    simp only [TaxTable.getOrCreate, hf]
    have hp1 := List.find?_some hf
    have hp : decide (s.user = uid ∧ s.name = name) = true := hp1
    have hpred := of_decide_eq_true hp
    have hst : s = t := key_unique hwf (List.mem_of_find?_eq_some hf) ht
      (hpred.1.trans hu.symm) (hpred.2.trans hn.symm)
    rw [hst]

theorem reconcile_cons_fst (tbl : TaxTable) (uid : Nat) (n : String) (rest : List String) :
    (tbl.reconcile uid (n :: rest)).1 =
      ((tbl.getOrCreate uid n).1.reconcile uid rest).1 := rfl

theorem reconcile_cons_snd (tbl : TaxTable) (uid : Nat) (n : String) (rest : List String) :
    (tbl.reconcile uid (n :: rest)).2 =
      if (tbl.getOrCreate uid n).2 ∈ ((tbl.getOrCreate uid n).1.reconcile uid rest).2
      then ((tbl.getOrCreate uid n).1.reconcile uid rest).2
      else (tbl.getOrCreate uid n).2 :: ((tbl.getOrCreate uid n).1.reconcile uid rest).2 := rfl

theorem reconcile_rows_subset (uid : Nat) :
    ∀ (names : List String) (tbl : TaxTable),
      ∀ t ∈ tbl.rows, t ∈ (tbl.reconcile uid names).1.rows
  | [], _, _, ht => ht
  | n :: rest, tbl, t, ht => by
    rw [reconcile_cons_fst]
    exact reconcile_rows_subset uid rest _ t (getOrCreate_mem_old tbl uid n t ht)

theorem reconcile_WF (uid : Nat) :
    ∀ (names : List String) (tbl : TaxTable), tbl.WF → (tbl.reconcile uid names).1.WF
  | [], _, h => h
  | n :: rest, tbl, h => by
    rw [reconcile_cons_fst]
    exact reconcile_WF uid rest _ (getOrCreate_WF uid n h)

theorem reconcile_resolves (uid : Nat) :
    ∀ (names : List String) (tbl : TaxTable), ∀ n ∈ names,
      ∃ t ∈ (tbl.reconcile uid names).1.rows, t.user = uid ∧ t.name = n
  | [], _, n, hn => absurd hn (List.not_mem_nil n)
  | m :: rest, tbl, n, hn => by
    rw [reconcile_cons_fst]
    rcases List.mem_cons.mp hn with heq | hn
    · subst heq
      obtain ⟨t, htmem, _, hu, hname⟩ := getOrCreate_resolves tbl uid n
      exact ⟨t, reconcile_rows_subset uid rest _ t htmem, hu, hname⟩
    · exact reconcile_resolves uid rest (tbl.getOrCreate uid m).1 n hn

theorem reconcile_rows_new (uid : Nat) :
    ∀ (names : List String) (tbl : TaxTable),
      ∀ t ∈ (tbl.reconcile uid names).1.rows,
        t ∈ tbl.rows ∨ (t.user = uid ∧ t.name ∈ names)
  | [], _, _, ht => Or.inl ht
  | n :: rest, tbl, t, ht => by
    rw [reconcile_cons_fst] at ht
    rcases reconcile_rows_new uid rest _ t ht with h | ⟨hu, hn⟩
    · rcases getOrCreate_mem_new tbl uid n t h with h2 | ⟨_, hu, hn⟩
      · exact Or.inl h2
      · refine Or.inr ⟨hu, ?_⟩
        rw [hn]
        exact List.mem_cons_self n rest
    · exact Or.inr ⟨hu, List.mem_cons_of_mem n hn⟩

theorem mem_insertIf (i j : Nat) (l : List Nat) :
    (i ∈ if j ∈ l then l else j :: l) ↔ i = j ∨ i ∈ l := by
  by_cases h : j ∈ l
  · rw [if_pos h]
    constructor
    · exact Or.inr
    · rintro (rfl | hm)
      · exact h
      · exact hm
  · rw [if_neg h, List.mem_cons]

theorem reconcile_ids_iff (uid : Nat) :
    ∀ (names : List String) (tbl : TaxTable), tbl.WF → ∀ i : Nat,
      i ∈ (tbl.reconcile uid names).2 ↔
        ∃ t ∈ (tbl.reconcile uid names).1.rows,
          t.id = i ∧ t.user = uid ∧ t.name ∈ names
  | [], tbl, _, i => by simp [TaxTable.reconcile]
  | n :: rest, tbl, hwf, i => by
    have hwf1 : (tbl.getOrCreate uid n).1.WF := getOrCreate_WF uid n hwf
    have hwf2 := reconcile_WF uid rest _ hwf1
    have ih := reconcile_ids_iff uid rest (tbl.getOrCreate uid n).1 hwf1
    obtain ⟨t0, ht0mem, ht0id, ht0u, ht0n⟩ := getOrCreate_resolves tbl uid n
    have ht0mem2 : t0 ∈ ((tbl.getOrCreate uid n).1.reconcile uid rest).1.rows :=
      reconcile_rows_subset uid rest _ t0 ht0mem
    rw [reconcile_cons_snd, reconcile_cons_fst, mem_insertIf]
    constructor
    · rintro (rfl | hi)
      · refine ⟨t0, ht0mem2, ht0id, ht0u, ?_⟩
        rw [ht0n]
        exact List.mem_cons_self n rest
      · obtain ⟨t, htmem, htid, htu, htn⟩ := (ih i).mp hi
        exact ⟨t, htmem, htid, htu, List.mem_cons_of_mem n htn⟩
    · rintro ⟨t, htmem, htid, htu, htn⟩
      rcases List.mem_cons.mp htn with heq | hrest
      · have htt0 : t = t0 :=
          key_unique hwf2 htmem ht0mem2 (htu.trans ht0u.symm) (heq.trans ht0n.symm)
        left
        rw [← htid, htt0, ht0id]
      · right
        exact (ih i).mpr ⟨t, htmem, htid, htu, hrest⟩

theorem reconcile_ids_nodup (uid : Nat) :
    ∀ (names : List String) (tbl : TaxTable), (tbl.reconcile uid names).2.Nodup
  | [], _ => List.nodup_nil
  | n :: rest, tbl => by
    rw [reconcile_cons_snd]
    by_cases h : (tbl.getOrCreate uid n).2 ∈ ((tbl.getOrCreate uid n).1.reconcile uid rest).2
    · rw [if_pos h]
      exact reconcile_ids_nodup uid rest _
    · rw [if_neg h]
      exact List.nodup_cons.mpr ⟨h, reconcile_ids_nodup uid rest _⟩

theorem countP_le_one_of_pairwise {α : Type} (p : α → Bool) :
    ∀ l : List α, l.Pairwise (fun a b => ¬(p a = true ∧ p b = true)) → l.countP p ≤ 1
  | [], _ => by simp
  | a :: l, h => by
    rcases List.pairwise_cons.mp h with ⟨ha, hl⟩
    by_cases hpa : p a = true
    · have hz : l.countP p = 0 :=
        List.countP_eq_zero.mpr (fun b hb hpb => (ha b hb) ⟨hpa, hpb⟩)
      simp [List.countP_cons, hpa, hz]
    · have hle := countP_le_one_of_pairwise p l hl
      simp only [List.countP_cons, hpa, if_false]
      simpa using hle

theorem reconcile_count_one (uid : Nat) (names : List String) (tbl : TaxTable)
    (hwf : tbl.WF) :
    ∀ n ∈ names,
      ((tbl.reconcile uid names).1.rows.countP
        (fun t => decide (t.user = uid ∧ t.name = n))) = 1 := by
  intro n hn
  have hwf2 := reconcile_WF uid names tbl hwf
  have himp : ∀ {a b : Taxon}, ¬(a.user = b.user ∧ a.name = b.name) →
      ¬(decide (a.user = uid ∧ a.name = n) = true ∧
        decide (b.user = uid ∧ b.name = n) = true) := by
    intro a b hab hc
    have ha := of_decide_eq_true hc.1
    have hb := of_decide_eq_true hc.2
    exact hab ⟨ha.1.trans hb.1.symm, ha.2.trans hb.2.symm⟩
  have hle := countP_le_one_of_pairwise _ _ (hwf2.2.2.imp himp)
  obtain ⟨t, htmem, hu, hname⟩ := reconcile_resolves uid names tbl n hn
  have hpos : 0 < (tbl.reconcile uid names).1.rows.countP
      (fun t => decide (t.user = uid ∧ t.name = n)) :=
    List.countP_pos_iff.mpr ⟨t, htmem, decide_eq_true_iff.mpr ⟨hu, hname⟩⟩
  omega

/-! ## Lemmas about the recipe store. -/

theorem rid_symm : Symmetric (fun a b : Recipe => a.id ≠ b.id) := by
  intro a b h hc
  exact h hc.symm

theorem recipe_id_unique {st : Store} (hwf : st.WF) {r s : Recipe}
    (hr : r ∈ st.recipes) (hs : s ∈ st.recipes) (h : r.id = s.id) : r = s := by
  by_contra hne
  exact List.Pairwise.forall rid_symm hwf.2.2.2 hr hs hne h

theorem recipe_get_ok {st : Store} {uid rid : Nat} {r : Recipe}
    (h : recipe_get st uid rid = Except.ok r) :
    r ∈ st.recipes ∧ r.id = rid ∧ r.user = uid := by
  cases hf : st.recipes.find? (fun x => decide (x.id = rid ∧ x.user = uid)) with
  | none =>
    simp only [recipe_get, hf] at h
    exact Except.noConfusion h
  | some s =>
    simp only [recipe_get, hf, Except.ok.injEq] at h
    rw [h] at hf
    have hp0 := List.find?_some hf
    have hp : decide (r.id = rid ∧ r.user = uid) = true := hp0
    exact ⟨List.mem_of_find?_eq_some hf, (of_decide_eq_true hp).1,
      (of_decide_eq_true hp).2⟩

theorem recipe_get_not_owner {st : Store} (hwf : st.WF) {r : Recipe}
    (hr : r ∈ st.recipes) {a : Nat} (ha : r.user ≠ a) :
    recipe_get st a r.id = Except.error Err.NotFound := by
  have hnone : st.recipes.find? (fun x => decide (x.id = r.id ∧ x.user = a)) = none := by
    rw [List.find?_eq_none]
    intro x hx hpred
    have hp : decide (x.id = r.id ∧ x.user = a) = true := hpred
    obtain ⟨hid, hu⟩ := of_decide_eq_true hp
    rw [recipe_id_unique hwf hx hr hid] at hu
    exact ha hu
  simp only [recipe_get, hnone]

theorem recipe_update_ok {st : Store} {uid rid : Nat} {p : RecipePayload} {patch : Bool}
    {r : Recipe} (hget : recipe_get st uid rid = Except.ok r)
    (hval : ¬(patch = false ∧ (p.title = none ∨ p.time_minutes = none ∨ p.price = none))) :
    recipe_update st uid rid p patch =
      ((recipe_update_apply st uid r p).1, Except.ok (recipe_update_apply st uid r p).2) := by
  simp only [recipe_update, hget]
  rw [if_neg hval]

theorem recipe_update_fst {st : Store} {uid rid : Nat} {p : RecipePayload}
    {patch : Bool} {r : Recipe} (hget : recipe_get st uid rid = Except.ok r)
    (hval : ¬(patch = false ∧ (p.title = none ∨ p.time_minutes = none ∨ p.price = none))) :
    (recipe_update st uid rid p patch).1 = (recipe_update_apply st uid r p).1 := by
  rw [recipe_update_ok hget hval]

theorem recipe_update_snd {st : Store} {uid rid : Nat} {p : RecipePayload}
    {patch : Bool} {r : Recipe} (hget : recipe_get st uid rid = Except.ok r)
    (hval : ¬(patch = false ∧ (p.title = none ∨ p.time_minutes = none ∨ p.price = none))) :
    (recipe_update st uid rid p patch).2 =
      Except.ok (recipe_update_apply st uid r p).2 := by
  rw [recipe_update_ok hget hval]

theorem recipe_update_apply_tags_some (st : Store) (uid : Nat) (r : Recipe)
    {p : RecipePayload} {ns : List String} (h : p.tags = some ns) :
    (recipe_update_apply st uid r p).2.tags = (st.tags.reconcile uid ns).2 ∧
    (recipe_update_apply st uid r p).1.tags = (st.tags.reconcile uid ns).1 := by
  constructor <;> simp [recipe_update_apply, h]

theorem recipe_update_apply_tags_none (st : Store) (uid : Nat) (r : Recipe)
    {p : RecipePayload} (h : p.tags = none) :
    (recipe_update_apply st uid r p).2.tags = r.tags ∧
    (recipe_update_apply st uid r p).1.tags = st.tags := by
  constructor <;> simp [recipe_update_apply, h]

theorem recipe_update_apply_ings_some (st : Store) (uid : Nat) (r : Recipe)
    {p : RecipePayload} {ns : List String} (h : p.ingredients = some ns) :
    (recipe_update_apply st uid r p).2.ingredients = (st.ingredients.reconcile uid ns).2 ∧
    (recipe_update_apply st uid r p).1.ingredients = (st.ingredients.reconcile uid ns).1 := by
  constructor <;> simp [recipe_update_apply, h]

theorem recipe_update_apply_ings_none (st : Store) (uid : Nat) (r : Recipe)
    {p : RecipePayload} (h : p.ingredients = none) :
    (recipe_update_apply st uid r p).2.ingredients = r.ingredients ∧
    (recipe_update_apply st uid r p).1.ingredients = st.ingredients := by
  constructor <;> simp [recipe_update_apply, h]

theorem recipe_update_apply_fields (st : Store) (uid : Nat) (r : Recipe)
    (p : RecipePayload) :
    (recipe_update_apply st uid r p).2.id = r.id ∧
    (recipe_update_apply st uid r p).2.user = r.user ∧
    (recipe_update_apply st uid r p).2.title = p.title.getD r.title ∧
    (recipe_update_apply st uid r p).2.time_minutes = p.time_minutes.getD r.time_minutes ∧
    (recipe_update_apply st uid r p).2.price = p.price.getD r.price ∧
    (recipe_update_apply st uid r p).2.link = p.link.getD r.link ∧
    (recipe_update_apply st uid r p).2.description = p.description.getD r.description := by
  refine ⟨?_, ?_, ?_, ?_, ?_, ?_, ?_⟩ <;> simp [recipe_update_apply, applyFields]

theorem map_update_mem (l : List Recipe) (r r' : Recipe) (hr : r ∈ l) :
    r' ∈ l.map (fun x => if x.id = r.id then r' else x) := by
  have h := List.mem_map_of_mem (fun x => if x.id = r.id then r' else x) hr
  simpa using h

theorem map_update_other (l : List Recipe) (r r' x : Recipe) (hx : x ∈ l)
    (hne : x.id ≠ r.id) :
    x ∈ l.map (fun y => if y.id = r.id then r' else y) := by
  have h := List.mem_map_of_mem (fun y => if y.id = r.id then r' else y) hx
  simpa [hne] using h

theorem recipe_update_apply_mem {st : Store} {uid : Nat} {r : Recipe}
    {p : RecipePayload} (hr : r ∈ st.recipes) :
    (recipe_update_apply st uid r p).2 ∈ (recipe_update_apply st uid r p).1.recipes := by
  simp only [recipe_update_apply]
  exact map_update_mem st.recipes r _ hr

theorem recipe_update_apply_other {st : Store} {uid : Nat} {r : Recipe}
    {p : RecipePayload} {x : Recipe} (hx : x ∈ st.recipes) (hne : x.id ≠ r.id) :
    x ∈ (recipe_update_apply st uid r p).1.recipes := by
  simp only [recipe_update_apply]
  exact map_update_other st.recipes r _ x hx hne

/-! ## Helper lemmas for email normalization. -/

theorem splitLastAt_of_not_mem {c : Char} :
    ∀ {l : List Char}, c ∉ l → splitLastAt c l = none
  | [], _ => rfl
  | x :: xs, h => by
    have hx : ¬(x = c) := by
      intro e
      subst e
      exact h (List.mem_cons_self x xs)
    have hxs : c ∉ xs := fun m => h (List.mem_cons_of_mem x m)
    simp [splitLastAt, splitLastAt_of_not_mem hxs, hx]

theorem splitLastAt_append {dom : List Char} (h : '@' ∉ dom) :
    ∀ loc : List Char, splitLastAt '@' (loc ++ '@' :: dom) = some (loc, dom)
  | [] => by simp [splitLastAt, splitLastAt_of_not_mem h]
  | x :: loc => by simp [splitLastAt, splitLastAt_append h loc]

theorem data_append3 (loc dom : String) :
    (loc ++ "@" ++ dom).data = loc.data ++ '@' :: dom.data := by
  simp [String.data_append, List.append_assoc]

theorem normalize_email_split (loc dom : String) (h : '@' ∉ dom.data) :
    normalize_email (loc ++ "@" ++ dom) =
      String.mk (loc.data ++ '@' :: dom.data.map Char.toLower) := by
  simp only [normalize_email, data_append3, splitLastAt_append h]

/-! ## The claims. -/

/-- C10: the `wait_for_db` management command's `handle` method is a no-op —
its trace of database-related effects is empty, so every invocation returns
immediately without querying, waiting for, or checking the database, despite
the docstring describing it as pausing until the database is available. -/
theorem wait_for_db_handle_is_noop :
    wait_for_db_handle = ([] : List DbAction) := rfl

/-- C2: ownership scoping of listing — for every store state and user `a`, the
recipe, tag and ingredient listings contain exactly the rows owned by `a`;
consequently for any distinct user `b`, a row owned by `b` never appears in
`a`'s listing. -/
theorem listing_scoped_to_owner (st : Store) (a : Nat) :
    (∀ r : Recipe, r ∈ recipe_list st a ↔ r ∈ st.recipes ∧ r.user = a) ∧
    (∀ t : Taxon, t ∈ tag_list st a ↔ t ∈ st.tags.rows ∧ t.user = a) ∧
    (∀ t : Taxon, t ∈ ingredient_list st a ↔ t ∈ st.ingredients.rows ∧ t.user = a) ∧
    (∀ b : Nat, b ≠ a →
      (∀ r ∈ st.recipes, r.user = b → r ∉ recipe_list st a) ∧
      (∀ t ∈ st.tags.rows, t.user = b → t ∉ tag_list st a) ∧
      (∀ t ∈ st.ingredients.rows, t.user = b → t ∉ ingredient_list st a)) := by
  have hr : ∀ r : Recipe, r ∈ recipe_list st a ↔ r ∈ st.recipes ∧ r.user = a := by
    intro r
    rw [recipe_list, mem_sortBy, List.mem_filter]
    simp
  have ht : ∀ t : Taxon, t ∈ tag_list st a ↔ t ∈ st.tags.rows ∧ t.user = a := by
    intro t
    rw [tag_list, mem_sortBy, List.mem_filter]
    simp
  have hi : ∀ t : Taxon, t ∈ ingredient_list st a ↔ t ∈ st.ingredients.rows ∧ t.user = a := by
    intro t
    rw [ingredient_list, mem_sortBy, List.mem_filter]
    simp
  refine ⟨hr, ht, hi, ?_⟩
  intro b hb
  refine ⟨?_, ?_, ?_⟩
  · intro r _ hrb hmem
    exact hb (hrb.symm.trans ((hr r).mp hmem).2)
  · intro t _ htb hmem
    exact hb (htb.symm.trans ((ht t).mp hmem).2)
  · intro t _ htb hmem
    exact hb (htb.symm.trans ((hi t).mp hmem).2)

/-- Witness for C2: in the concrete two-user store, user 0's listing contains
user 0's recipe and not user 1's recipe. -/
theorem listing_scoped_to_owner_witness :
    exRecipe ∈ recipe_list exStore 0 ∧ exRecipeB ∉ recipe_list exStore 0 :=
  ⟨((listing_scoped_to_owner exStore 0).1 exRecipe).mpr ⟨by decide, by decide⟩,
   ((listing_scoped_to_owner exStore 0).2.2.2 1 (by decide)).1 exRecipeB
     (by decide) (by decide)⟩

/-- C9: listing order — the recipe listing is sorted by id descending and is a
permutation of the user's rows; the tag and ingredient listings are sorted by
name descending (in the modelled collation) and are permutations of the
user's rows. -/
theorem listing_order_desc (st : Store) (a : Nat) :
    (recipe_list st a).Pairwise (fun x y => y.id ≤ x.id) ∧
    (recipe_list st a).Perm (st.recipes.filter (fun r => decide (r.user = a))) ∧
    (tag_list st a).Pairwise (fun x y => nameLe y.name x.name = true) ∧
    (tag_list st a).Perm (st.tags.rows.filter (fun t => decide (t.user = a))) ∧
    (ingredient_list st a).Pairwise (fun x y => nameLe y.name x.name = true) ∧
    (ingredient_list st a).Perm
      (st.ingredients.rows.filter (fun t => decide (t.user = a))) := by
  have htotR : ∀ x y : Recipe, decide (y.id ≤ x.id) = true ∨ decide (x.id ≤ y.id) = true := by
    intro x y
    rcases Nat.le_total y.id x.id with h | h
    · exact Or.inl (decide_eq_true_iff.mpr h)
    · exact Or.inr (decide_eq_true_iff.mpr h)
  have htrR : ∀ x y z : Recipe, decide (y.id ≤ x.id) = true →
      decide (z.id ≤ y.id) = true → decide (z.id ≤ x.id) = true := by
    intro x y z h1 h2
    exact decide_eq_true_iff.mpr
      (Nat.le_trans (of_decide_eq_true h2) (of_decide_eq_true h1))
  have htotN : ∀ x y : Taxon, nameLe y.name x.name = true ∨ nameLe x.name y.name = true :=
    fun x y => nameLe_total y.name x.name
  have htrN : ∀ x y z : Taxon, nameLe y.name x.name = true →
      nameLe z.name y.name = true → nameLe z.name x.name = true :=
    fun x y z h1 h2 => nameLe_trans z.name y.name x.name h2 h1
  refine ⟨?_, sortBy_perm _ _, ?_, sortBy_perm _ _, ?_, sortBy_perm _ _⟩
  · exact (sortBy_pairwise _ htotR htrR _).imp (fun h => of_decide_eq_true h)
  · exact sortBy_pairwise _ htotN htrN _
  · exact sortBy_pairwise _ htotN htrN _

/-- C5: cross-owner access fails as NotFound with the state unchanged — for a
recipe owned by a user other than `a`, the scoped lookup yields `NotFound`
(never `Forbidden`), the scoped delete returns `NotFound` leaving the store
exactly as it was, and the row still exists afterwards. -/
theorem cross_owner_not_found (st : Store) (a : Nat) (r : Recipe)
    (hwf : st.WF) (hr : r ∈ st.recipes) (hab : a ≠ r.user) :
    recipe_get st a r.id = Except.error Err.NotFound ∧
    recipe_delete st a r.id = (st, Except.error Err.NotFound) ∧
    r ∈ (recipe_delete st a r.id).1.recipes := by
  have hget := recipe_get_not_owner hwf hr (fun h => hab h.symm)
  refine ⟨hget, ?_, ?_⟩
  · simp only [recipe_delete, hget]
  · simp only [recipe_delete, hget]
    exact hr

/-- Witness for C5 at a concrete store: user 0 probing user 1's recipe. -/
theorem cross_owner_not_found_witness :
    Store.WF exStore ∧ exRecipeB ∈ exStore.recipes ∧ (0 : Nat) ≠ exRecipeB.user ∧
    (recipe_get exStore 0 exRecipeB.id = Except.error Err.NotFound ∧
     recipe_delete exStore 0 exRecipeB.id = (exStore, Except.error Err.NotFound) ∧
     exRecipeB ∈ (recipe_delete exStore 0 exRecipeB.id).1.recipes) :=
  ⟨by decide, by decide, by decide,
   cross_owner_not_found exStore 0 exRecipeB (by decide) (by decide) (by decide)⟩

/-- C6 is refuted as stated: `create_user` does not store the supplied email
verbatim for every non-empty input — on the concrete input `a@B` the stored
email is the normalized `a@b`, which differs from the supplied `a@B` (the
success and `check_password` parts of the claim do hold, see the amended
theorem). -/
theorem create_user_email_not_stored_verbatim :
    ((create_user emptyStore (some "a@B") "pw").2 =
      Except.ok {
        id := 0,
        email := "a@b",
        password := hash_password "pw",
        is_active := true,
        is_staff := false,
        is_superuser := false }) ∧
    ("a@b" : String) ≠ "a@B" := by
  constructor
  · decide
  · decide

/-- C6 (amended): for every non-empty email, `create_user` succeeds, the
stored email is the normalized input (equal to the input verbatim whenever the
input is already normalized), and `check_password` accepts the original
password; for an absent or empty email it fails with `InvalidInput` and the
store is unchanged. -/
theorem create_user_ok_iff_email_present (st : Store) (e pw : String) (he : e ≠ "") :
    (∃ u : User, (create_user st (some e) pw).2 = Except.ok u ∧
      u.email = normalize_email e ∧ check_password u pw = true) ∧
    create_user st none pw = (st, Except.error Err.InvalidInput) ∧
    create_user st (some "") pw = (st, Except.error Err.InvalidInput) := by
  refine ⟨?_, rfl, ?_⟩
  · refine ⟨{
      id := st.next_user_id,
      email := normalize_email e,
      password := hash_password pw,
      is_active := true,
      is_staff := false,
      is_superuser := false }, ?_, rfl, ?_⟩
    · simp only [create_user, if_neg he]
    · simp [check_password]
  · simp [create_user]

/-- Witness for the amended C6 at a concrete input. -/
theorem create_user_ok_iff_email_present_witness :
    ("test@example.com" : String) ≠ "" ∧
    ((∃ u : User,
        (create_user emptyStore (some "test@example.com") "Testpass123").2 =
          Except.ok u ∧
        u.email = normalize_email "test@example.com" ∧
        check_password u "Testpass123" = true) ∧
      create_user emptyStore none "Testpass123" =
        (emptyStore, Except.error Err.InvalidInput) ∧
      create_user emptyStore (some "") "Testpass123" =
        (emptyStore, Except.error Err.InvalidInput)) :=
  ⟨by decide,
   create_user_ok_iff_email_present emptyStore "test@example.com" "Testpass123"
     (by decide)⟩

/-- C7: email normalization — for an email written as `local@domain` where the
domain holds no further `@`, the normalized form (and therefore the stored
email of the created user) keeps the local part character-for-character and
lowercases exactly the domain portion. -/
theorem email_normalization (st : Store) (pw loc dom : String)
    (h : '@' ∉ dom.data) :
    normalize_email (loc ++ "@" ++ dom) =
      String.mk (loc.data ++ '@' :: dom.data.map Char.toLower) ∧
    (∃ u : User, (create_user st (some (loc ++ "@" ++ dom)) pw).2 = Except.ok u ∧
      u.email = String.mk (loc.data ++ '@' :: dom.data.map Char.toLower)) := by
  have hne : loc ++ "@" ++ dom ≠ "" := by
    intro he
    have hd := congrArg String.data he
    rw [data_append3] at hd
    exact absurd (List.append_eq_nil.mp hd).2 (List.cons_ne_nil _ _)
  refine ⟨normalize_email_split loc dom h, ?_⟩
  refine ⟨{
    id := st.next_user_id,
    email := normalize_email (loc ++ "@" ++ dom),
    password := hash_password pw,
    is_active := true,
    is_staff := false,
    is_superuser := false }, ?_, ?_⟩
  · simp only [create_user, if_neg hne]
  · exact normalize_email_split loc dom h

/-- Witness for C7 at the concrete input `Test2@Test.com` from the test
suite. -/
theorem email_normalization_witness :
    ('@' ∉ ("Test.com" : String).data) ∧
    (normalize_email ("Test2" ++ "@" ++ "Test.com") =
      String.mk (("Test2" : String).data ++ '@' ::
        ("Test.com" : String).data.map Char.toLower) ∧
     (∃ u : User,
        (create_user emptyStore (some ("Test2" ++ "@" ++ "Test.com")) "pw").2 =
          Except.ok u ∧
        u.email = String.mk (("Test2" : String).data ++ '@' ::
          ("Test.com" : String).data.map Char.toLower))) :=
  ⟨by decide, email_normalization emptyStore "pw" "Test2" "Test.com" (by decide)⟩

/-- C1: association replacement semantics — whenever an update whose payload
contains the tags (respectively ingredients) key succeeds, the updated
recipe's tag (ingredient) id set equals exactly the ids of the rows resolved
from the supplied names under the requesting user: members not named are
removed, newly named members are added, and an empty collection leaves the
set empty. -/
theorem update_replaces_association_sets (st : Store) (uid rid : Nat)
    (p : RecipePayload) (patch : Bool) (r' : Recipe) (hwf : st.WF)
    (hok : (recipe_update st uid rid p patch).2 = Except.ok r') :
    (∀ tnames, p.tags = some tnames →
      (∀ i : Nat, i ∈ r'.tags ↔
        ∃ t ∈ (recipe_update st uid rid p patch).1.tags.rows,
          t.id = i ∧ t.user = uid ∧ t.name ∈ tnames) ∧
      (tnames = [] → r'.tags = [])) ∧
    (∀ inames, p.ingredients = some inames →
      (∀ i : Nat, i ∈ r'.ingredients ↔
        ∃ t ∈ (recipe_update st uid rid p patch).1.ingredients.rows,
          t.id = i ∧ t.user = uid ∧ t.name ∈ inames) ∧
      (inames = [] → r'.ingredients = [])) ∧
    r' ∈ (recipe_update st uid rid p patch).1.recipes := by
  cases hget : recipe_get st uid rid with
  | error e =>
    simp only [recipe_update, hget] at hok
    exact Except.noConfusion hok
  | ok r =>
    by_cases hval : patch = false ∧ (p.title = none ∨ p.time_minutes = none ∨ p.price = none)
    · simp only [recipe_update, hget] at hok
      rw [if_pos hval] at hok
      exact Except.noConfusion hok
    · rw [recipe_update_snd hget hval] at hok
      have hr2 : (recipe_update_apply st uid r p).2 = r' := by simpa using hok
      subst hr2
      rw [recipe_update_fst hget hval]
      refine ⟨?_, ?_, recipe_update_apply_mem (recipe_get_ok hget).1⟩
      · intro tnames ht
        have htag := recipe_update_apply_tags_some st uid r ht
        constructor
        · intro i
          rw [htag.1, htag.2]
          exact reconcile_ids_iff uid tnames st.tags hwf.1 i
        · intro hnil
          subst hnil
          rw [htag.1]
          rfl
      · intro inames hi
        have hing := recipe_update_apply_ings_some st uid r hi
        constructor
        · intro i
          rw [hing.1, hing.2]
          exact reconcile_ids_iff uid inames st.ingredients hwf.2.1 i
        · intro hnil
          subst hnil
          rw [hing.1]
          rfl

/-- Witness for C1: patching the sample recipe (tags `{Breakfast}`, one
ingredient) with tag list `[Lunch]` and ingredient list `[]` yields exactly
the `Lunch` tag and an empty ingredient set. -/
theorem update_replaces_association_sets_witness :
    Store.WF exStore ∧
    (recipe_update exStore 0 5 exPayload true).2 = Except.ok exUpdated ∧
    ((∀ tnames, exPayload.tags = some tnames →
      (∀ i : Nat, i ∈ exUpdated.tags ↔
        ∃ t ∈ (recipe_update exStore 0 5 exPayload true).1.tags.rows,
          t.id = i ∧ t.user = 0 ∧ t.name ∈ tnames) ∧
      (tnames = [] → exUpdated.tags = [])) ∧
    (∀ inames, exPayload.ingredients = some inames →
      (∀ i : Nat, i ∈ exUpdated.ingredients ↔
        ∃ t ∈ (recipe_update exStore 0 5 exPayload true).1.ingredients.rows,
          t.id = i ∧ t.user = 0 ∧ t.name ∈ inames) ∧
      (inames = [] → exUpdated.ingredients = [])) ∧
    exUpdated ∈ (recipe_update exStore 0 5 exPayload true).1.recipes) :=
  ⟨by decide, by decide,
   update_replaces_association_sets exStore 0 5 exPayload true exUpdated
     (by decide) (by decide)⟩

/-- C3: get-or-create idempotence and deduplication — resolving a name that
matches an existing `(user, name)` row reuses exactly that row and leaves the
table unchanged; reconciling any name list (with possible duplicates) keeps
the table free of duplicate `(user, name)` rows, produces exactly one row per
requested name, yields a duplicate-free association id list, and that list
holds the resolved row's id exactly once — one row and one association per
name. -/
theorem get_or_create_idempotent (tbl : TaxTable) (uid : Nat) (name : String)
    (names : List String) (hwf : tbl.WF) :
    (∀ t ∈ tbl.rows, t.user = uid → t.name = name →
      tbl.getOrCreate uid name = (tbl, t.id)) ∧
    (tbl.reconcile uid names).1.WF ∧
    (∀ n ∈ names,
      ((tbl.reconcile uid names).1.rows.countP
        (fun t => decide (t.user = uid ∧ t.name = n))) = 1) ∧
    (tbl.reconcile uid names).2.Nodup ∧
    (∀ n ∈ names, ∃ t ∈ (tbl.reconcile uid names).1.rows,
      t.user = uid ∧ t.name = n ∧
      List.count t.id (tbl.reconcile uid names).2 = 1) := by
  refine ⟨?_, reconcile_WF uid names tbl hwf, reconcile_count_one uid names tbl hwf,
    reconcile_ids_nodup uid names tbl, ?_⟩
  · intro t ht hu hn
    exact getOrCreate_existing hwf ht hu hn
  · intro n hn
    obtain ⟨t, htmem, hu, hname⟩ := reconcile_resolves uid names tbl n hn
    have hid : t.id ∈ (tbl.reconcile uid names).2 :=
      (reconcile_ids_iff uid names tbl hwf t.id).mpr
        ⟨t, htmem, rfl, hu, by rw [hname]; exact hn⟩
    exact ⟨t, htmem, hu, hname,
      List.count_eq_one_of_mem (reconcile_ids_nodup uid names tbl) hid⟩

/-- Witness for C3: reconciling `["Vegan", "Vegan"]` against the sample tag
table, and re-resolving the existing `Breakfast` row. -/
theorem get_or_create_idempotent_witness :
    TaxTable.WF exTagTable ∧
    ((∀ t ∈ exTagTable.rows, t.user = 0 → t.name = "Breakfast" →
      exTagTable.getOrCreate 0 "Breakfast" = (exTagTable, t.id)) ∧
    (exTagTable.reconcile 0 ["Vegan", "Vegan"]).1.WF ∧
    (∀ n ∈ ["Vegan", "Vegan"],
      ((exTagTable.reconcile 0 ["Vegan", "Vegan"]).1.rows.countP
        (fun t => decide (t.user = 0 ∧ t.name = n))) = 1) ∧
    (exTagTable.reconcile 0 ["Vegan", "Vegan"]).2.Nodup ∧
    (∀ n ∈ ["Vegan", "Vegan"], ∃ t ∈ (exTagTable.reconcile 0 ["Vegan", "Vegan"]).1.rows,
      t.user = 0 ∧ t.name = n ∧
      List.count t.id (exTagTable.reconcile 0 ["Vegan", "Vegan"]).2 = 1)) :=
  ⟨by decide, get_or_create_idempotent exTagTable 0 "Breakfast" ["Vegan", "Vegan"]
    (by decide)⟩

/-- C4 is refuted as stated: a full (non-partial) update whose payload holds
only the user key — exactly the shape the test suite sends — does not succeed:
the required core fields are missing, so the operation fails with
`InvalidInput` (the store, and with it the owner, unchanged). -/
theorem full_update_with_only_user_fails :
    exPayloadOnlyUser.user = some 1 ∧
    recipe_update exStore 0 5 exPayloadOnlyUser false =
      (exStore, Except.error Err.InvalidInput) ∧
    exRecipe ∈ exStore.recipes ∧ exRecipe.user = 0 := by
  refine ⟨rfl, by decide, by decide, rfl⟩

/-- C4 (amended): ownership immutability under update — for an update whose
payload contains the user field, if it is partial, or full with the required
core fields supplied, it succeeds without error, leaves the recipe's owning
user unchanged, and applies the other supplied fields normally; a full update
missing a required core field instead fails with `InvalidInput`, returning
the store unchanged (so ownership is again unchanged) — in neither case is
the user key itself an error or applied. -/
theorem update_ignores_user_field (st : Store) (uid rid : Nat) (p : RecipePayload)
    (patch : Bool) (r : Recipe) (v : Nat)
    (hget : recipe_get st uid rid = Except.ok r)
    (huser : p.user = some v) :
    ((patch = true ∨ (p.title ≠ none ∧ p.time_minutes ≠ none ∧ p.price ≠ none)) →
      ∃ r' : Recipe, (recipe_update st uid rid p patch).2 = Except.ok r' ∧
        r' ∈ (recipe_update st uid rid p patch).1.recipes ∧
        r'.user = r.user ∧ r'.id = r.id ∧
        (∀ s, p.title = some s → r'.title = s) ∧
        (∀ m, p.time_minutes = some m → r'.time_minutes = m) ∧
        (∀ c, p.price = some c → r'.price = c) ∧
        (∀ s, p.link = some s → r'.link = s) ∧
        (∀ s, p.description = some s → r'.description = s)) ∧
    ((patch = false ∧ (p.title = none ∨ p.time_minutes = none ∨ p.price = none)) →
      recipe_update st uid rid p patch = (st, Except.error Err.InvalidInput)) := by
  constructor
  · intro hval
    have hvalneg : ¬(patch = false ∧
        (p.title = none ∨ p.time_minutes = none ∨ p.price = none)) := by
      rcases hval with h | ⟨h1, h2, h3⟩
      · intro hc
        rw [h] at hc
        exact absurd hc.1 (by decide)
      · intro hc
        rcases hc.2 with h | h | h
        · exact h1 h
        · exact h2 h
        · exact h3 h
    have hf := recipe_update_apply_fields st uid r p
    refine ⟨(recipe_update_apply st uid r p).2, recipe_update_snd hget hvalneg, ?_,
      hf.2.1, hf.1, ?_, ?_, ?_, ?_, ?_⟩
    · rw [recipe_update_fst hget hvalneg]
      exact recipe_update_apply_mem (recipe_get_ok hget).1
    · intro s hs
      rw [hf.2.2.1, hs]
      rfl
    · intro m hm
      rw [hf.2.2.2.1, hm]
      rfl
    · intro c hc
      rw [hf.2.2.2.2.1, hc]
      rfl
    · intro s hs
      rw [hf.2.2.2.2.2.1, hs]
      rfl
    · intro s hs
      rw [hf.2.2.2.2.2.2, hs]
      rfl
  · intro hcond
    simp only [recipe_update, hget]
    rw [if_pos hcond]

/-- Witness for the amended C4: patching the sample recipe with a payload
carrying both a new owner id and a new title. -/
theorem update_ignores_user_field_witness :
    recipe_get exStore 0 5 = Except.ok exRecipe ∧
    exPayloadUser.user = some 1 ∧
    ((((true : Bool) = true ∨ (exPayloadUser.title ≠ none ∧
        exPayloadUser.time_minutes ≠ none ∧ exPayloadUser.price ≠ none)) →
      ∃ r' : Recipe, (recipe_update exStore 0 5 exPayloadUser true).2 = Except.ok r' ∧
        r' ∈ (recipe_update exStore 0 5 exPayloadUser true).1.recipes ∧
        r'.user = exRecipe.user ∧ r'.id = exRecipe.id ∧
        (∀ s, exPayloadUser.title = some s → r'.title = s) ∧
        (∀ m, exPayloadUser.time_minutes = some m → r'.time_minutes = m) ∧
        (∀ c, exPayloadUser.price = some c → r'.price = c) ∧
        (∀ s, exPayloadUser.link = some s → r'.link = s) ∧
        (∀ s, exPayloadUser.description = some s → r'.description = s)) ∧
    (((true : Bool) = false ∧ (exPayloadUser.title = none ∨
        exPayloadUser.time_minutes = none ∨ exPayloadUser.price = none)) →
      recipe_update exStore 0 5 exPayloadUser true =
        (exStore, Except.error Err.InvalidInput))) :=
  ⟨by decide, by decide,
   update_ignores_user_field exStore 0 5 exPayloadUser true exRecipe 1
     (by decide) (by decide)⟩

/-- C8: partial-update frame property — under patch semantics only the fields
present in the payload are overwritten: every absent core field keeps its
previous value, an absent tags/ingredients key leaves both the recipe's
association set and the corresponding taxonomy table untouched, and the other
recipes remain in the store. -/
theorem partial_update_frame (st : Store) (uid rid : Nat) (p : RecipePayload)
    (r : Recipe) (hget : recipe_get st uid rid = Except.ok r) :
    ∃ r' : Recipe, (recipe_update st uid rid p true).2 = Except.ok r' ∧
      r'.id = r.id ∧ r'.user = r.user ∧
      r'.title = p.title.getD r.title ∧
      r'.time_minutes = p.time_minutes.getD r.time_minutes ∧
      r'.price = p.price.getD r.price ∧
      r'.link = p.link.getD r.link ∧
      r'.description = p.description.getD r.description ∧
      (p.tags = none → r'.tags = r.tags) ∧
      (p.ingredients = none → r'.ingredients = r.ingredients) ∧
      (p.tags = none → (recipe_update st uid rid p true).1.tags = st.tags) ∧
      (p.ingredients = none →
        (recipe_update st uid rid p true).1.ingredients = st.ingredients) ∧
      (∀ x ∈ st.recipes, x.id ≠ r.id → x ∈ (recipe_update st uid rid p true).1.recipes) := by
  have hvalneg : ¬((true : Bool) = false ∧
      (p.title = none ∨ p.time_minutes = none ∨ p.price = none)) := by
    intro hc
    exact absurd hc.1 (by decide)
  have hf := recipe_update_apply_fields st uid r p
  refine ⟨(recipe_update_apply st uid r p).2, recipe_update_snd hget hvalneg,
    hf.1, hf.2.1, hf.2.2.1, hf.2.2.2.1, hf.2.2.2.2.1, hf.2.2.2.2.2.1,
    hf.2.2.2.2.2.2, ?_, ?_, ?_, ?_, ?_⟩
  · intro h
    exact (recipe_update_apply_tags_none st uid r h).1
  · intro h
    exact (recipe_update_apply_ings_none st uid r h).1
  · intro h
    rw [recipe_update_fst hget hvalneg]
    exact (recipe_update_apply_tags_none st uid r h).2
  · intro h
    rw [recipe_update_fst hget hvalneg]
    exact (recipe_update_apply_ings_none st uid r h).2
  · intro x hx hne
    rw [recipe_update_fst hget hvalneg]
    exact recipe_update_apply_other hx hne

/-- Witness for C8: patching only the title of the sample recipe. -/
theorem partial_update_frame_witness :
    recipe_get exStore 0 5 = Except.ok exRecipe ∧
    (∃ r' : Recipe, (recipe_update exStore 0 5 exPayloadTitle true).2 = Except.ok r' ∧
      r'.id = exRecipe.id ∧ r'.user = exRecipe.user ∧
      r'.title = exPayloadTitle.title.getD exRecipe.title ∧
      r'.time_minutes = exPayloadTitle.time_minutes.getD exRecipe.time_minutes ∧
      r'.price = exPayloadTitle.price.getD exRecipe.price ∧
      r'.link = exPayloadTitle.link.getD exRecipe.link ∧
      r'.description = exPayloadTitle.description.getD exRecipe.description ∧
      (exPayloadTitle.tags = none → r'.tags = exRecipe.tags) ∧
      (exPayloadTitle.ingredients = none → r'.ingredients = exRecipe.ingredients) ∧
      (exPayloadTitle.tags = none →
        (recipe_update exStore 0 5 exPayloadTitle true).1.tags = exStore.tags) ∧
      (exPayloadTitle.ingredients = none →
        (recipe_update exStore 0 5 exPayloadTitle true).1.ingredients =
          exStore.ingredients) ∧
      (∀ x ∈ exStore.recipes, x.id ≠ exRecipe.id →
        x ∈ (recipe_update exStore 0 5 exPayloadTitle true).1.recipes)) :=
  ⟨by decide, partial_update_frame exStore 0 5 exPayloadTitle exRecipe (by decide)⟩

end RecipeApp
